import Mathlib

/-!
# Verification of the ASF Highlights contributor-analysis engine

A shallow embedding of the Contributor History Analysis Engine of the
`asf-highlights` repository (`apache_analysis_lib.py` and `highlights.py`),
together with theorems settling the frozen claims about it.

Conventions of the embedding:
* Python strings are Lean `String`s; the handful of string primitives the
  code uses (`lower`, `in`, `endswith`, `strip`, `split`, `replace`,
  `rsplit`, `count`) are defined below over `List Char`, faithful to their
  Python (ASCII) behaviour on the data this program handles.
* Python `datetime` values that flow through the aggregation pipeline are
  abstracted as `Int` instants (timezone-aware datetimes compare by
  instant); the Date Normalizer, whose behaviour on raw strings is itself
  under scrutiny, is modelled structurally (`PyDT`) with the wall-clock
  fields and optional zone offset that `datetime` carries.
* Python `dict`s (insertion ordered, unique keys) are association lists;
  the `dict`/`set` idioms the code relies on (insertion order, value
  replacement keeping the original key position) are modelled explicitly.
* External I/O (the `subprocess` call in `run_git_command`,
  `get_github_username`'s extra git lookup) is abstracted at its
  interface: `run_git_command` becomes a function of the subprocess
  outcome, and the GitHub-username lookup (pure presentation data) is
  omitted from the report records.
-/

/-! ## String primitives (Python semantics) -/

/-- Python `str.lower` restricted to ASCII, which is all this program's
pattern lists contain. -/
def lowCh (c : Char) : Char :=
  if c.isUpper then Char.ofNat (c.toNat + 32) else c

/-- Python `s.lower()`. -/
def pyLower (s : String) : String := String.mk (s.toList.map lowCh)

/-- Occurrence of `sub` as a contiguous substring of `hay`
(Python `sub in hay`). -/
def listContainsSub (hay sub : List Char) : Bool :=
  match hay with
  | [] => sub.isEmpty
  | _ :: t => sub.isPrefixOf hay || listContainsSub t sub

/-- Python `sub in hay` for strings. -/
def strContainsSub (hay sub : String) : Bool :=
  listContainsSub hay.toList sub.toList

/-- Python `hay.endswith(sfx)`. -/
def strEndsWith (hay sfx : String) : Bool :=
  List.isSuffixOf sfx.toList hay.toList

/-- Drop leading whitespace. -/
def trimFront : List Char → List Char
  | [] => []
  | c :: r => if c.isWhitespace then trimFront r else c :: r

/-- Python `s.strip()`. -/
def pyStrip (s : String) : String :=
  String.mk ((trimFront (trimFront s.toList).reverse).reverse)

/-- The whitespace-separated words of a character list
(Python `s.split()` with no argument). -/
def wordsAux : List Char → List Char → List (List Char)
  | [], acc => if acc.isEmpty then [] else [acc.reverse]
  | c :: rest, acc =>
    if c.isWhitespace then
      if acc.isEmpty then wordsAux rest [] else acc.reverse :: wordsAux rest []
    else wordsAux rest (c :: acc)

def wordsOf (cs : List Char) : List (List Char) := wordsAux cs []

/-- Join words with single spaces (Python `' '.join(words)`). -/
def joinWords : List (List Char) → List Char
  | [] => []
  | [w] => w
  | w :: ws => w ++ ' ' :: joinWords ws

/-- `re.sub(r'\s+', ' ', s.strip())`: collapse whitespace runs to single
spaces and trim the ends. -/
def normalizeWs (s : String) : String := String.mk (joinWords (wordsOf s.toList))

/-- Python `s.count(c)` for a single character. -/
def countCh (c : Char) (s : String) : Nat := s.toList.count c

/-- Python `c in s` for a single character. -/
def hasCh (c : Char) (s : String) : Bool := s.toList.contains c

/-- Python `s.replace(' ', 'T')` (single-character replacement). -/
def spaceToT (s : String) : String :=
  String.mk (s.toList.map (fun c => if c == ' ' then 'T' else c))

/-- Python `s.rsplit(' ', 1)` when it actually splits: the part before and
after the last space, or `none` when the string has no space (in which
case `rsplit` returns the one-element list `[s]`). -/
def rsplitSpace (s : String) : Option (String × String) :=
  let cs := s.toList
  match cs.reverse.findIdx? (· == ' ') with
  | none => none
  | some j =>
    let i := cs.length - 1 - j
    some (String.mk (cs.take i), String.mk (cs.drop (i + 1)))

/-! ## Bot classifier (`ApacheAnalysisBase.is_bot_or_ci`, identical code in
`ApacheHighlights.is_bot_or_ci`) -/

/-- `bot_name_patterns` (source list, lines 109-124 of
`apache_analysis_lib.py`). -/
def bot_name_patterns : List String :=
  ["[bot]", "jenkins", "ci", "continuous integration", "github-actions",
   "dependabot", "renovate", "codecov", "travis", "circleci", "appveyor",
   "buildbot", "automation", "auto-commit"]

/-- `bot_email_patterns` (source list, lines 127-139). -/
def bot_email_patterns : List String :=
  ["jenkins", "ci@", "automation@", "github-actions", "dependabot",
   "renovate", "codecov", "travis", "circleci", "appveyor", "buildbot"]

/-- `bot_domains` (source list, lines 152-156). -/
def bot_domains : List String :=
  ["dependabot.com", "renovatebot.com", "codecov.io"]

/-- The inline bot-indicator list of the `users.noreply.github.com`
special case (line 161). -/
def github_noreply_bot_indicators : List String :=
  ["dependabot", "renovate", "github-actions", "bot"]

/-- The first loop of `is_bot_or_ci`: some name pattern occurs in the
lowercased name. -/
def nameRuleMatches (author_name : String) : Bool :=
  bot_name_patterns.any (fun p => strContainsSub (pyLower author_name) p)

/-- The second loop of `is_bot_or_ci`: some email pattern occurs in the
lowercased email. -/
def emailRuleMatches (author_email : String) : Bool :=
  bot_email_patterns.any (fun p => strContainsSub (pyLower author_email) p)

/-- The `bot_domains` suffix loop of `is_bot_or_ci`. -/
def domainRuleMatches (author_email : String) : Bool :=
  bot_domains.any (fun d => strEndsWith (pyLower author_email) d)

/-- The bot-indicator check inside the `users.noreply.github.com` branch. -/
def noreplyBotIndicator (author_email : String) : Bool :=
  github_noreply_bot_indicators.any
    (fun p => strContainsSub (pyLower author_email) p)

/-- The generic no-reply keyword check (lines 175-177). -/
def genericNoreplyMatches (author_name author_email : String) : Bool :=
  (["noreply", "donotreply", "no-reply"].any
      (fun p => strContainsSub (pyLower author_name) p))
  || (["noreply", "no-reply", "donotreply"].any
      (fun p => strContainsSub (pyLower author_email) p))

/-- `is_bot_or_ci(author_name, author_email)` (lines 102-179): the ordered
first-match-wins chain of the source, with each loop rendered as a named
`any`.  Note the source order: the `users.noreply.github.com` branch (which
can return `False` early) and the bare `noreply.github.com` branch run
BEFORE the `bot_domains` suffix loop. -/
def is_bot_or_ci (author_name author_email : String) : Bool :=
  if nameRuleMatches author_name then true
  else if emailRuleMatches author_email then true
  else if strContainsSub (pyLower author_email) "users.noreply.github.com" then
    noreplyBotIndicator author_email
  else if strContainsSub (pyLower author_email) "noreply.github.com" then true
  else if domainRuleMatches author_email then true
  else if genericNoreplyMatches author_name author_email then true
  else false

example : is_bot_or_ci "Jenkins CI" "ci@example.org" = true := by decide
example : is_bot_or_ci "Jane Doe" "12345+janedoe@users.noreply.github.com" = false := by
  decide

/-! ## Date normalizer (`parse_git_date`, identical code in
`apache_analysis_lib.py` lines 71-100 and `highlights.py` lines 53-82) -/

/-- A Python `datetime`: wall-clock fields plus optional zone offset in
minutes (`none` = naive, `some m` = `timezone(timedelta(minutes=m))`). -/
structure PyDT where
  year : Nat
  month : Nat
  day : Nat
  hour : Nat
  minute : Nat
  second : Nat
  tzOffsetMin : Option Int
deriving Repr, DecidableEq

def digitVal (c : Char) : Option Nat :=
  if c.isDigit then some (c.toNat - 48) else none

def take2 : List Char → Option (Nat × List Char)
  | a :: b :: r => do
    let x ← digitVal a
    let y ← digitVal b
    pure (10 * x + y, r)
  | _ => none

def take4 : List Char → Option (Nat × List Char)
  | a :: b :: c :: d :: r => do
    let x ← digitVal a
    let y ← digitVal b
    let z ← digitVal c
    let w ← digitVal d
    pure (1000 * x + 100 * y + 10 * z + w, r)
  | _ => none

def isLeap (y : Nat) : Bool :=
  (y % 4 == 0 && y % 100 != 0) || (y % 400 == 0)

def daysInMonth (y m : Nat) : Nat :=
  if m == 2 then (if isLeap y then 29 else 28)
  else if m == 4 || m == 6 || m == 9 || m == 11 then 30
  else 31

/-- CPython's tz-position scan in `_parse_isoformat_time`: the position of
`-` if any, else of `+`, else of `Z`. -/
def tzSplitPos (cs : List Char) : Option Nat :=
  match cs.findIdx? (· == '-') with
  | some i => some i
  | none =>
    match cs.findIdx? (· == '+') with
    | some i => some i
    | none => cs.findIdx? (· == 'Z')

/-- `HH[:MM[:SS]]`, consuming the whole input (fractional seconds are not
modelled; none of the program's inputs carry them). -/
def parseClock (cs : List Char) : Option (Nat × Nat × Nat) :=
  match take2 cs with
  | some (h, []) => some (h, 0, 0)
  | some (h, ':' :: r) =>
    match take2 r with
    | some (mi, []) => some (h, mi, 0)
    | some (mi, ':' :: r2) =>
      match take2 r2 with
      | some (s, []) => some (h, mi, s)
      | _ => none
    | _ => none
  | _ => none

/-- Offset magnitude after the sign: `HH`, `HHMM` or `HH:MM`, consuming the
whole input (CPython ≥ 3.11 accepts all three). -/
def parseOffMag (cs : List Char) : Option Int :=
  match take2 cs with
  | some (hh, []) => some ((hh : Int) * 60)
  | some (hh, ':' :: r) =>
    match take2 r with
    | some (mm, []) => some ((hh : Int) * 60 + mm)
    | _ => none
  | some (hh, r) =>
    match take2 r with
    | some (mm, []) => some ((hh : Int) * 60 + mm)
    | _ => none
  | none => none

/-- The timezone tail beginning at the scan position: empty (naive), a
terminal `Z`, or a signed offset. -/
def parseTzTail (cs : List Char) : Option (Option Int) :=
  match cs with
  | [] => some none
  | ['Z'] => some (some 0)
  | '+' :: r => (parseOffMag r).map (fun m => some m)
  | '-' :: r => (parseOffMag r).map (fun m => some (-m))
  | _ => none

def clockValid (h mi s : Nat) : Bool :=
  h < 24 && mi < 60 && s < 60

def offValid : Option Int → Bool
  | none => true
  | some m => -1440 < m && m < 1440

/-- `datetime.fromisoformat` as CPython evaluates it on this program's
inputs: `YYYY-MM-DD`, optionally a single separator character and
`HH[:MM[:SS]]`, optionally a zone suffix found by scanning the time part
for `-`/`+`/`Z`.  `none` models a raised `ValueError`.  (On every string
this development evaluates it at, CPython 3.11+ and earlier versions
agree.) -/
def fromisoformat (s : String) : Option PyDT := do
  let cs := s.toList
  let (y, r1) ← take4 cs
  match r1 with
  | '-' :: r2 =>
    let (mo, r3) ← take2 r2
    match r3 with
    | '-' :: r4 =>
      let (d, rest) ← take2 r4
      if 1 ≤ mo ∧ mo ≤ 12 ∧ 1 ≤ d ∧ d ≤ daysInMonth y mo then
        match rest with
        | [] => some ⟨y, mo, d, 0, 0, 0, none⟩
        | _sep :: tcs =>
          let cut := match tzSplitPos tcs with
            | some i => i
            | none => tcs.length
          let (h, mi, sec) ← parseClock (tcs.take cut)
          let off ← parseTzTail (tcs.drop cut)
          if clockValid h mi sec && offValid off then
            some ⟨y, mo, d, h, mi, sec, off⟩
          else none
      else none
    | _ => none
  | _ => none

/-- `dt.replace(tzinfo=timezone.utc)`: keep the wall-clock fields, force
the zone to UTC. -/
def replaceTzUtc (dt : PyDT) : PyDT := { dt with tzOffsetMin := some 0 }

/-- `datetime(1970, 1, 1, tzinfo=timezone.utc)`, the sentinel for
unparseable dates. -/
def epochDT : PyDT := ⟨1970, 1, 1, 0, 0, 0, some 0⟩

/-- `parse_git_date(date_str)`: whitespace normalization; if a `+` occurs
or more than two `-` occur, try `fromisoformat` on the space→`T`
replacement, falling back (on `ValueError`) to splitting at the last space
and parsing the prefix as naive labelled UTC; otherwise parse the whole
(space→`T`) string and label it UTC; any remaining failure yields the
epoch sentinel.  The `rsplit = none` sub-branch models the source's fall-
through (when the string has no space, control reaches the trailing naive
parse of the same full string). -/
def parse_git_date (s : String) : PyDT :=
  let t := normalizeWs s
  if hasCh '+' t || decide (countCh '-' t > 2) then
    match fromisoformat (spaceToT t) with
    | some dt => dt
    | none =>
      match rsplitSpace t with
      | some (datePart, _tz) =>
        match fromisoformat (spaceToT datePart) with
        | some dt => replaceTzUtc dt
        | none => epochDT
      | none =>
        match fromisoformat (spaceToT t) with
        | some dt => replaceTzUtc dt
        | none => epochDT
  else
    match fromisoformat (spaceToT t) with
    | some dt => replaceTzUtc dt
    | none => epochDT

/-! Converting an aware `PyDT` to the instant it denotes, for comparison
with the spec's expected values. -/

def daysBeforeYear : Nat → Nat
  | 0 => 0
  | y + 1 =>
    if y + 1 ≤ 1970 then 0
    else daysBeforeYear y + (if isLeap y then 366 else 365)

def daysBeforeMonth (y : Nat) : Nat → Nat
  | 0 => 0
  | m + 1 =>
    if m + 1 ≤ 1 then 0
    else daysBeforeMonth y m + daysInMonth y m

/-- Seconds since 1970-01-01T00:00:00 of a UTC wall clock (valid for years
≥ 1970, which covers every date this development evaluates). -/
def utcInstant (y mo d h mi s : Nat) : Int :=
  ((daysBeforeYear y + daysBeforeMonth y mo + (d - 1)) * 86400
    + h * 3600 + mi * 60 + s : Nat)

/-- The instant an aware datetime denotes (`none` for naive values). -/
def pyInstant (dt : PyDT) : Option Int :=
  dt.tzOffsetMin.map
    (fun off => utcInstant dt.year dt.month dt.day dt.hour dt.minute dt.second
                - off * 60)

example : parse_git_date "2025-01-27 10:30:45" =
    ⟨2025, 1, 27, 10, 30, 45, some 0⟩ := by decide
example : parse_git_date "2025-01-27 10:30:45 -0800" =
    ⟨2025, 1, 27, 10, 30, 45, some 0⟩ := by decide
example : parse_git_date "not a date" = epochDT := by decide

/-! ## Pipeline data model

A normalized commit and the per-contributor record the pipeline builds.
`Info` carries every key the Python dicts hold by the time they reach the
resolver (`all_emails` is `Option` because only the library resolver's
merge branch adds that key). -/

structure Commit where
  date : Int
  hash : String
deriving Repr, DecidableEq

structure Info where
  name : String
  email : String
  first_commit_date : Int
  first_commit_hash : String
  total_commits : Nat
  all_commits : List Commit
  all_emails : Option (List String)
deriving Repr, DecidableEq

instance : Inhabited Info := ⟨⟨"", "", 0, "", 0, [], none⟩⟩

/-- `' '.join(info['name'].lower().split())`: the normalized display name
the resolver groups by. -/
def normalizeName (s : String) : String := normalizeWs (pyLower s)

/-- The grouping key of one `(email_key, info)` pair. -/
def keyOfPair (p : String × Info) : String := normalizeName p.2.name

/-- One iteration of the `name_groups[normalized_name].append(...)` loop
on a `defaultdict(list)`: append to the existing group of this key
(keeping the group's position) or start a new group at the end. -/
def insertGroup (acc : List (String × List (String × Info)))
    (p : String × Info) : List (String × List (String × Info)) :=
  if acc.any (fun g => g.1 == keyOfPair p) then
    acc.map (fun g => if g.1 == keyOfPair p then (g.1, g.2 ++ [p]) else g)
  else acc ++ [(keyOfPair p, [p])]

/-- `name_groups`: group the contributor mapping's entries by normalized
name; groups are ordered by first appearance of the key, members in
encounter order, exactly as `defaultdict(list)` builds them. -/
def groupByName (l : List (String × Info)) :
    List (String × List (String × Info)) :=
  l.foldl insertGroup []

/-! ## Identity resolver, `highlights.py` version
(`ApacheHighlights.normalize_contributor_identity`, lines 163-225) -/

/-- The earliest-tracking loop (`if earliest_date is None or
info['first_commit_date'] < earliest_date`) after its first iteration:
the running `(earliest_date, earliest_email, earliest_info)` is replaced
only on a strictly earlier date, so the first minimum wins. -/
def earliestFrom (d : Int) (ek : String) (ei : Info) :
    List (String × Info) → Int × String × Info
  | [] => (d, ek, ei)
  | p :: rest =>
    if p.2.first_commit_date < d then
      earliestFrom p.2.first_commit_date p.1 p.2 rest
    else earliestFrom d ek ei rest

/-- The whole earliest-tracking loop (`None` start, first member taken
unconditionally). -/
def earliestFold : List (String × Info) → Option (Int × String × Info)
  | [] => none
  | p :: rest => some (earliestFrom p.2.first_commit_date p.1 p.2 rest)

/-- Python `max` after its first element: the current maximum is replaced
only by a strictly greater key, so the first maximum wins. -/
def maxFrom (q : String × Info) : List (String × Info) → String × Info
  | [] => q
  | p :: rest =>
    if q.2.first_commit_date < p.2.first_commit_date then maxFrom p rest
    else maxFrom q rest

/-- Python `max(email_infos, key=lambda x: x[1]['first_commit_date'])`. -/
def maxByFirstDate : List (String × Info) → Option (String × Info)
  | [] => none
  | p :: rest => some (maxFrom p rest)

/-- The `all_commits_merged` accumulation (`extend` in member order). -/
def mergedCommits (g : List (String × Info)) : List Commit :=
  g.foldl (fun acc p => acc ++ p.2.all_commits) []

/-- Stable ascending insertion keeping an incoming element after existing
elements of equal date. -/
def insertAsc (c : Commit) : List Commit → List Commit
  | [] => [c]
  | d :: rest => if d.date < c.date then d :: insertAsc c rest else c :: d :: rest

/-- Python's stable `sorted(all_commits_merged, key=lambda x: x['date'])`.
(A stable ascending sort is a unique function of its input; insertion
sort with strict comparison realizes it.) -/
def sortAsc (l : List Commit) : List Commit := l.foldr insertAsc []

/-- The `seen_hashes` de-duplication loop: keep the first commit bearing
each hash. -/
def dedupByHash : List Commit → List String → List Commit
  | [], _ => []
  | c :: rest, seen =>
    if seen.contains c.hash then dedupByHash rest seen
    else c :: dedupByHash rest (c.hash :: seen)

/-- The `else` branch of the highlights resolver for a group of several
emails: merge, sort, de-duplicate, take the earliest member's record with
the most recent member's name.  (The group is nonempty whenever this is
called; the `none` fallback is unreachable.) -/
def hlMergeGroup (g : List (String × Info)) : String × Info :=
  match earliestFold g, maxByFirstDate g with
  | some (_, ek, ei), some mr =>
    let uniq := dedupByHash (sortAsc (mergedCommits g)) []
    (ek, { ei with name := mr.2.name, all_commits := uniq,
                   total_commits := uniq.length })
  | _, _ => ("", default)

/-- One group of the highlights resolver's output loop: singleton groups
pass through as-is (`len(email_infos) == 1`), larger groups are merged. -/
def hlResolveGroup : String × List (String × Info) → String × Info
  | (_, [p]) => p
  | (_, g) => hlMergeGroup g

/-- `ApacheHighlights.normalize_contributor_identity(contributors)`. -/
def hl_normalize_contributor_identity
    (contributors : List (String × Info)) : List (String × Info) :=
  (groupByName contributors).map hlResolveGroup

/-! ## Identity resolver, library version
(`ApacheAnalysisBase.normalize_contributor_identity`, lines 181-243) -/

/-- The running state of the library resolver's single merge loop:
`(earliest_date, earliest_email, earliest_info)` (kept together, as they
are assigned together), `most_recent_name`, `all_emails`, `all_commits`. -/
structure LibMergeState where
  earliest : Option (Int × String × Info)
  mrn : Option String
  emails : List String
  commits : List Commit

/-- One iteration of the library merge loop.  NOTE the source compares
`info['first_commit_date'] > earliest_info['first_commit_date']` — the
running EARLIEST entry, not the latest seen so far — and only afterwards
updates the earliest entry.  The `some n, none` arm is unreachable
(`mrn` and `earliest` are first assigned in the same iteration). -/
def libStep (st : LibMergeState) (p : String × Info) : LibMergeState :=
  let emails := st.emails ++ [p.2.email]
  let commits := st.commits ++ p.2.all_commits
  let mrn :=
    match st.mrn, st.earliest with
    | none, _ => some p.2.name
    | some n, none => some n
    | some n, some (d, _, _) =>
      if d < p.2.first_commit_date then some p.2.name else some n
  let earliest :=
    match st.earliest with
    | none => some (p.2.first_commit_date, p.1, p.2)
    | some (d, ek, ei) =>
      if p.2.first_commit_date < d then some (p.2.first_commit_date, p.1, p.2)
      else some (d, ek, ei)
  ⟨earliest, mrn, emails, commits⟩

/-- Python `unique_commits[commit['hash']] = commit` on a dict: a later
commit with a seen hash replaces the stored value but keeps the key's
original position; a new hash is appended. -/
def pyDictInsert (l : List (String × Commit)) (c : Commit) :
    List (String × Commit) :=
  if l.any (fun q => q.1 == c.hash) then
    l.map (fun q => if q.1 == c.hash then (q.1, c) else q)
  else l ++ [(c.hash, c)]

def pyDictOfCommits (cs : List Commit) : List (String × Commit) :=
  cs.foldl pyDictInsert []

/-- First-occurrence de-duplication of the merged email list.  Models
`list(set(all_emails))`; CPython's set iteration order is unspecified, and
no claim depends on this field's order, only on which field is present. -/
def dedupFirst : List String → List String → List String
  | [], _ => []
  | e :: rest, seen =>
    if seen.contains e then dedupFirst rest seen
    else e :: dedupFirst rest (e :: seen)

/-- The code after the library resolver's merge loop: hash
de-duplication via a dict, then the earliest member's record updated in
place.  The merged commits are NOT sorted. -/
def libFinish (st : LibMergeState) : String × Info :=
  match st.earliest, st.mrn with
  | some (_, ek, ei), some n =>
    let uniq := pyDictOfCommits st.commits
    (ek, { ei with name := n,
                   all_emails := some (dedupFirst st.emails []),
                   all_commits := uniq.map Prod.snd,
                   total_commits := uniq.length })
  | _, _ => ("", default)

/-- The `else` branch of the library resolver: the loop fold followed by
the finish step. -/
def libMergeGroup (g : List (String × Info)) : String × Info :=
  libFinish (g.foldl libStep ⟨none, none, [], []⟩)

def libResolveGroup : String × List (String × Info) → String × Info
  | (_, [p]) => p
  | (_, g) => libMergeGroup g

/-- `ApacheAnalysisBase.normalize_contributor_identity(contributors)`. -/
def lib_normalize_contributor_identity
    (contributors : List (String × Info)) : List (String × Info) :=
  (groupByName contributors).map libResolveGroup

/-! ## Commit log extraction interface (`run_git_command`,
`apache_analysis_lib.py` lines 33-53) -/

/-- The possible outcomes of the `subprocess.run(['git'] + command, ...)`
call, the engine's only external operation: completion with a return code
and captured output, expiry of the 30-second timeout, or a raised
exception (e.g. `NotADirectoryError` / `FileNotFoundError` when the
repository path is missing or not a directory). -/
inductive GitOutcome where
  | completed (returncode : Int) (stdout : String) (stderr : String)
  | timedOut
  | raised (msg : String)
deriving Repr, DecidableEq

/-- `run_git_command`: stripped stdout on exit code 0; `None` (logged) for
a non-zero exit, for a timeout, and for any raised exception. -/
def run_git_command : GitOutcome → Option String
  | .completed rc out _ => if rc == 0 then some (pyStrip out) else none
  | .timedOut => none
  | .raised _ => none

/-! ## Contributor aggregation (`get_all_contributors` main loop,
`apache_analysis_lib.py` lines 260-307 = `highlights.py` lines 242-289) -/

/-- One parsed line of `git log --pretty=format:%an|%ae|%ad|%H`, after the
date has passed through `parse_git_date` (abstracted to its instant). -/
structure RawCommit where
  author_name : String
  author_email : String
  commit_date : Int
  commit_hash : String
deriving Repr, DecidableEq

/-- The fields of a `contributors[key]` dict before the counting pass adds
`total_commits` / `all_commits`. -/
structure PreInfo where
  name : String
  email : String
  first_commit_date : Int
  first_commit_hash : String
deriving Repr, DecidableEq

/-- Lookup in an insertion-ordered dict. -/
def assocFind (l : List (String × α)) (k : String) : Option α :=
  (l.find? (fun q => q.1 == k)).map Prod.snd

/-- Replace the value stored under a present key, keeping its position. -/
def assocUpdate (l : List (String × α)) (k : String) (v : α) :
    List (String × α) :=
  l.map (fun q => if q.1 == k then (k, v) else q)

/-- `commit_counts[key].append(...)` together with the `if key not in
commit_counts` initialization. -/
def assocAppendCommit (l : List (String × List Commit)) (k : String)
    (c : Commit) : List (String × List Commit) :=
  if l.any (fun q => q.1 == k) then
    l.map (fun q => if q.1 == k then (q.1, q.2 ++ [c]) else q)
  else l ++ [(k, [c])]

structure AggState where
  contributors : List (String × PreInfo)
  commit_counts : List (String × List Commit)
deriving Repr, DecidableEq

/-- The body of the `for line in log_output.split('\n')` loop for one
parsed record: skip bots, key by lowercased email, append to the commit
count, create the contributor entry on first sight, and replace its
`first_commit` fields only when a strictly earlier timestamp is observed
(`if commit_datetime < contributors[key]['first_commit_date']`). -/
def recordStep (st : AggState) (r : RawCommit) : AggState :=
  if is_bot_or_ci r.author_name r.author_email then st
  else
    let key := pyLower r.author_email
    let counts := assocAppendCommit st.commit_counts key
      ⟨r.commit_date, r.commit_hash⟩
    let contribs :=
      match assocFind st.contributors key with
      | none =>
        st.contributors ++
          [(key, ⟨r.author_name, r.author_email, r.commit_date, r.commit_hash⟩)]
      | some info =>
        if r.commit_date < info.first_commit_date then
          assocUpdate st.contributors key
            ⟨r.author_name, r.author_email, r.commit_date, r.commit_hash⟩
        else st.contributors
    ⟨contribs, counts⟩

/-! ## Milestone & new-contributor analyzer (`highlights.py`
`analyze_repository` lines 372-399 and `analyze_milestones` lines
332-370).  The `github_username` field is presentation data obtained by a
further git invocation (`get_github_username`), out of the analysis
engine's scope; the report records are modelled without it. -/

structure NewContributorInfo where
  name : String
  email : String
  first_commit_date : Int
  first_commit_hash : String
deriving Repr, DecidableEq

def mkNewContributor (info : Info) : NewContributorInfo :=
  ⟨info.name, info.email, info.first_commit_date, info.first_commit_hash⟩

/-- `analyze_repository`: keep, in iteration order, the contributors with
`info['first_commit_date'] >= self.cutoff_date`. -/
def analyze_repository (cutoff : Int) (contributors : List (String × Info)) :
    List NewContributorInfo :=
  contributors.filterMap
    (fun p =>
      if cutoff ≤ p.2.first_commit_date then some (mkNewContributor p.2)
      else none)

structure MilestoneInfo where
  name : String
  email : String
  milestone_commit_number : Nat
  milestone_commit_date : Int
  milestone_commit_hash : String
  total_commits : Nat
deriving Repr, DecidableEq

def mkMilestoneInfo (info : Info) (n : Nat) (c : Commit) : MilestoneInfo :=
  ⟨info.name, info.email, n, c.date, c.hash, info.total_commits⟩

/-- The keys of the `milestones` dict. -/
def milestone_numbers : List Nat := [10, 25, 50, 100, 500, 1000]

/-- The `for i, commit in enumerate(info['all_commits'])` scan for one
contributor, restricted to the bucket of milestone number `k`; `n` is the
1-based `commit_number` of the head commit.  The source guard is
`commit_date >= self.cutoff_date and commit_number in milestones and
commit_number <= info['total_commits']`. -/
def milestoneScan (cutoff : Int) (k : Nat) (info : Info) :
    Nat → List Commit → List MilestoneInfo
  | _, [] => []
  | n, c :: rest =>
    (if decide (cutoff ≤ c.date) && n == k && decide (n ≤ info.total_commits)
     then [mkMilestoneInfo info n c] else [])
      ++ milestoneScan cutoff k info (n + 1) rest

/-- `analyze_milestones`, viewed per milestone bucket: the dict holds
entries only for the six milestone numbers, each bucket collecting, in
contributor order then commit order, the qualifying events with that
commit number.  (Contributors with an empty `all_commits` are skipped by
the source's `continue`; scanning an empty list yields nothing, so the
model agrees.) -/
def analyze_milestones (cutoff : Int) (contributors : List (String × Info))
    (k : Nat) : List MilestoneInfo :=
  if k ∈ milestone_numbers then
    contributors.foldl
      (fun acc p => acc ++ milestoneScan cutoff k p.2 1 p.2.all_commits) []
  else []

/-! ## Concrete inputs used by counterexamples and witnesses -/

/-- A contributor aggregate with the given name, email, first-commit date
and commit list (hash-distinct, used to build concrete scenarios). -/
def mkAgg (nm em : String) (d : Int) (cs : List Commit) : Info :=
  ⟨nm, em, d, "h-" ++ em, cs.length, cs, none⟩

/-- Three aggregates sharing the normalized name "alice smith", with
first-commit dates 5, 3, 4 in processing order: the member with the
latest date (5) is processed first. -/
def nameOrderInput : List (String × Info) :=
  [("a@x", mkAgg "Alice Smith" "a@x" 5 [⟨5, "ha"⟩]),
   ("b@x", mkAgg "alice smith" "b@x" 3 [⟨3, "hb"⟩]),
   ("c@x", mkAgg "ALICE SMITH" "c@x" 4 [⟨4, "hc"⟩])]

/-- Two aggregates sharing the normalized name "bob jones"; each member's
commit list is sorted and hash-distinct, but the first member's commit is
later than the second's. -/
def unsortedMergeInput : List (String × Info) :=
  [("e1@x", mkAgg "Bob Jones" "e1@x" 10 [⟨10, "h1"⟩]),
   ("e2@x", mkAgg "bob jones" "e2@x" 5 [⟨5, "h2"⟩])]

/-- A resolved contributor whose first commit is at instant 100. -/
def wNewInfo : Info := mkAgg "Carol" "carol@x" 100 [⟨100, "hc1"⟩]

/-- A resolved contributor with exactly ten commits at instants 1..10. -/
def wTenInfo : Info :=
  mkAgg "Dave" "dave@x" 1
    [⟨1, "d1"⟩, ⟨2, "d2"⟩, ⟨3, "d3"⟩, ⟨4, "d4"⟩, ⟨5, "d5"⟩,
     ⟨6, "d6"⟩, ⟨7, "d7"⟩, ⟨8, "d8"⟩, ⟨9, "d9"⟩, ⟨10, "d10"⟩]

/-- An aggregation state holding one contributor keyed by
"alice@example.org" whose first commit is at instant 50. -/
def wAggState : AggState :=
  ⟨[("alice@example.org", ⟨"Alice", "alice@example.org", 50, "hfirst"⟩)],
   [("alice@example.org", [⟨50, "hfirst"⟩])]⟩

/-- A non-bot record for the same contributor whose timestamp ties the
stored first commit exactly. -/
def wTieRecord : RawCommit := ⟨"Alice B", "Alice@example.org", 50, "hsecond"⟩

/-! # Theorems -/

/-! ## Helper lemmas -/

theorem mem_foldl_append {α β : Type} (f : α → List β) :
    ∀ (l : List α) (init : List β) (x : β),
      x ∈ l.foldl (fun acc p => acc ++ f p) init ↔
        x ∈ init ∨ ∃ p ∈ l, x ∈ f p := by
  intro l
  induction l with
  | nil => simp
  | cons p t ih =>
    intro init x
    simp only [List.foldl_cons, ih, List.mem_append, List.mem_cons]
    constructor
    · rintro ((h | h) | ⟨q, hq, hx⟩)
      · exact Or.inl h
      · exact Or.inr ⟨p, Or.inl rfl, h⟩
      · exact Or.inr ⟨q, Or.inr hq, hx⟩
    · rintro (h | ⟨q, (rfl | hq), hx⟩)
      · exact Or.inl (Or.inl h)
      · exact Or.inl (Or.inr hx)
      · exact Or.inr ⟨q, hq, hx⟩

theorem milestoneScan_mem (cutoff : Int) (k : Nat) (info : Info) :
    ∀ (l : List Commit) (n : Nat) (e : MilestoneInfo),
      e ∈ milestoneScan cutoff k info n l ↔
        ∃ j : Nat, ∃ hj : j < l.length,
          e = mkMilestoneInfo info (n + j) (l.get ⟨j, hj⟩) ∧ n + j = k ∧
          cutoff ≤ (l.get ⟨j, hj⟩).date ∧ n + j ≤ info.total_commits := by
  intro l
  induction l with
  | nil => simp [milestoneScan]
  | cons c rest ih =>
    intro n e
    simp only [milestoneScan, List.mem_append, ih]
    constructor
    · rintro (h | ⟨j, hj, he, hk, hc, ht⟩)
      · by_cases hg :
          (decide (cutoff ≤ c.date) && n == k && decide (n ≤ info.total_commits)) = true
        · rw [if_pos hg] at h
          simp only [List.mem_singleton] at h
          simp only [Bool.and_eq_true, beq_iff_eq, decide_eq_true_eq] at hg
          exact ⟨0, by simp, by simpa using h, by simpa using hg.1.2,
            by simpa using hg.1.1, by simpa using hg.2⟩
        · rw [if_neg hg] at h
          cases h
      · refine ⟨j + 1, by simpa using hj, ?_, by omega, ?_, by omega⟩
        · simpa [Nat.add_comm, Nat.add_assoc, Nat.add_left_comm] using he
        · simpa using hc
    · rintro ⟨j, hj, he, hk, hc, ht⟩
      cases j with
      | zero =>
        left
        have hg : (decide (cutoff ≤ c.date) && n == k &&
            decide (n ≤ info.total_commits)) = true := by
          simp only [Bool.and_eq_true, beq_iff_eq, decide_eq_true_eq]
          refine ⟨⟨by simpa using hc, by simpa using hk⟩, by simpa using ht⟩
        rw [if_pos hg]
        simpa using he
      | succ j' =>
        right
        refine ⟨j', by simpa using hj, ?_, by omega, ?_, by omega⟩
        · simpa [Nat.add_comm, Nat.add_assoc, Nat.add_left_comm] using he
        · simpa using hc

/-! ## Claim C1 -/

/-- C1: for every resolved contributor mapping and every cutoff instant,
`analyze_repository` reports a contributor as a new contributor iff that
contributor's `first_commit_date` is ≥ the cutoff; a contributor whose
first commit is strictly before the cutoff is never reported, regardless
of the commits it made inside the window. -/
theorem analyze_repository_reports_new_iff (cutoff : Int)
    (contributors : List (String × Info)) (p : String × Info)
    (hmem : p ∈ contributors) :
    mkNewContributor p.2 ∈ analyze_repository cutoff contributors ↔
      cutoff ≤ p.2.first_commit_date := by
  constructor
  · intro h
    simp only [analyze_repository, List.mem_filterMap] at h
    obtain ⟨q, _, hcond⟩ := h
    by_cases hc : cutoff ≤ q.2.first_commit_date
    · rw [if_pos hc] at hcond
      have h2 : mkNewContributor q.2 = mkNewContributor p.2 :=
        Option.some.inj hcond
      have h3 : q.2.first_commit_date = p.2.first_commit_date :=
        congrArg NewContributorInfo.first_commit_date h2
      exact h3 ▸ hc
    · rw [if_neg hc] at hcond
      cases hcond
  · intro h
    simp only [analyze_repository, List.mem_filterMap]
    exact ⟨p, hmem, by rw [if_pos h]⟩

/-- Witness for C1 at a concrete mapping: the contributor with first
commit at instant 100 is reported for cutoff 100 (boundary inclusive). -/
theorem analyze_repository_reports_new_iff_witness :
    mkNewContributor wNewInfo ∈ analyze_repository 100 [("carol@x", wNewInfo)] :=
  (analyze_repository_reports_new_iff 100 [("carol@x", wNewInfo)]
    ("carol@x", wNewInfo) (by decide)).mpr (by decide)

/-! ## Claim C2 -/

/-- C2: for every resolved contributor whose `all_commits` is sorted
ascending by timestamp (and carries the resolver's `total_commits =
len(all_commits)` invariant), `analyze_milestones` reports the commit at
1-based position `k` as a milestone event with commit number `k` iff
`k ∈ {10, 25, 50, 100, 500, 1000}` and that commit's timestamp is ≥ the
cutoff; a commit whose timestamp equals the cutoff exactly is included,
one strictly before it is excluded. -/
theorem analyze_milestones_reports_iff (cutoff : Int)
    (contributors : List (String × Info)) (p : String × Info) (k : Nat)
    (hmem : p ∈ contributors)
    (_hsorted : List.Pairwise (fun a b => a.date ≤ b.date) p.2.all_commits)
    (htot : p.2.total_commits = p.2.all_commits.length)
    (hk : 1 ≤ k) (hidx : k - 1 < p.2.all_commits.length) :
    mkMilestoneInfo p.2 k (p.2.all_commits.get ⟨k - 1, hidx⟩) ∈
        analyze_milestones cutoff contributors k ↔
      k ∈ milestone_numbers ∧
        cutoff ≤ (p.2.all_commits.get ⟨k - 1, hidx⟩).date := by
  by_cases hk6 : k ∈ milestone_numbers
  · simp only [analyze_milestones, if_pos hk6, mem_foldl_append,
      List.not_mem_nil, false_or]
    constructor
    · rintro ⟨q, _, hscan⟩
      rw [milestoneScan_mem] at hscan
      obtain ⟨j, hj, he, _, hc, _⟩ := hscan
      have hdate : (p.2.all_commits.get ⟨k - 1, hidx⟩).date =
          (q.2.all_commits.get ⟨j, hj⟩).date :=
        congrArg MilestoneInfo.milestone_commit_date he
      exact ⟨hk6, hdate ▸ hc⟩
    · rintro ⟨_, hc⟩
      refine ⟨p, hmem, ?_⟩
      rw [milestoneScan_mem]
      refine ⟨k - 1, hidx, ?_, by omega, hc, by omega⟩
      have h1 : 1 + (k - 1) = k := by omega
      rw [h1]
  · simp only [analyze_milestones, if_neg hk6, List.not_mem_nil, false_iff,
      not_and]
    intro h
    exact absurd h hk6

/-- Witness for C2: for the ten-commit contributor, the 10th commit (at
instant 10) is reported for cutoff 10 (boundary inclusive). -/
theorem analyze_milestones_reports_iff_witness :
    mkMilestoneInfo wTenInfo 10 (wTenInfo.all_commits.get ⟨9, by decide⟩) ∈
      analyze_milestones 10 [("dave@x", wTenInfo)] 10 :=
  (analyze_milestones_reports_iff 10 [("dave@x", wTenInfo)]
      ("dave@x", wTenInfo) 10 (by decide) (by decide) (by decide)
      (by decide) (by decide)).mpr (by decide)

/-! ## Claim C3 -/

/-- C3 counterexample: on `"2025-01-27 10:30:45 -0800"` the offset is NOT
honored.  The zone marker is detected (three `-` characters), but the
direct parse operates on `"2025-01-27T10:30:45T-0800"` (every space was
replaced by `T`), which `fromisoformat` rejects; the fallback splits at
the last space, parses the prefix as naive and labels it UTC.  The result
denotes 2025-01-27T10:30:45Z, not the claimed 2025-01-27T18:30:45Z. -/
theorem parse_git_date_offset_not_honored :
    pyInstant (parse_git_date "2025-01-27 10:30:45 -0800") =
        some (utcInstant 2025 1 27 10 30 45) ∧
      utcInstant 2025 1 27 10 30 45 ≠ utcInstant 2025 1 27 18 30 45 := by
  constructor
  · decide
  · decide

/-- C3 amended: the date normalizer maps `"2025-01-27 10:30:45 -0800"` to
2025-01-27T10:30:45Z (the offset is detected but then dropped: the naive
wall-clock time is labelled UTC), maps `"2025-01-27 10:30:45"` (no
offset) to 2025-01-27T10:30:45Z, and maps `"not a date"` to the Unix
epoch in UTC. -/
theorem parse_git_date_examples :
    pyInstant (parse_git_date "2025-01-27 10:30:45 -0800") =
        some (utcInstant 2025 1 27 10 30 45) ∧
      pyInstant (parse_git_date "2025-01-27 10:30:45") =
        some (utcInstant 2025 1 27 10 30 45) ∧
      parse_git_date "not a date" = epochDT ∧
      pyInstant epochDT = some 0 := by
  refine ⟨by decide, by decide, by decide, by decide⟩

/-! ## Claim C6 -/

/-- C6 counterexample: the privacy-address carve-out does NOT apply to
every host.  `("Jane", "jane@users.noreply.gitlab.com")` matches the
`users.noreply.<host>` shape for host `gitlab.com`, matches none of the
name/email/domain substring rules and contains no bot keyword, so the
claim predicts "human" — but the code only special-cases the literal
`users.noreply.github.com`, and the address falls through to the generic
`noreply` rule and is classified automated. -/
theorem noreply_carveout_not_every_host :
    strContainsSub (pyLower "jane@users.noreply.gitlab.com")
        "users.noreply." = true ∧
      nameRuleMatches "Jane" = false ∧
      emailRuleMatches "jane@users.noreply.gitlab.com" = false ∧
      domainRuleMatches "jane@users.noreply.gitlab.com" = false ∧
      noreplyBotIndicator "jane@users.noreply.gitlab.com" = false ∧
      is_bot_or_ci "Jane" "jane@users.noreply.gitlab.com" = true := by
  refine ⟨by decide, by decide, by decide, by decide, by decide, by decide⟩

/-- C6 amended: for every name and email such that the email contains
`users.noreply.github.com` (the one host the code special-cases) and the
name and email match none of the substring rules 1-3, the classifier
returns automated iff the email additionally contains one of dependabot,
renovate, github-actions, or "bot"; addresses `users.noreply.<host>` for
any other host are not special-cased (see the counterexample, where the
generic noreply rule then classifies them automated). -/
theorem noreply_carveout_github (author_name author_email : String)
    (h1 : nameRuleMatches author_name = false)
    (h2 : emailRuleMatches author_email = false)
    (_h3 : domainRuleMatches author_email = false)
    (h4 : strContainsSub (pyLower author_email) "users.noreply.github.com"
      = true) :
    is_bot_or_ci author_name author_email = noreplyBotIndicator author_email := by
  simp only [is_bot_or_ci, h1, h2, h4]
  simp

/-- Witness for C6 amended: the carve-out classifies a real GitHub
privacy address as human. -/
theorem noreply_carveout_github_witness :
    is_bot_or_ci "Jane Doe" "12345+janedoe@users.noreply.github.com" =
      noreplyBotIndicator "12345+janedoe@users.noreply.github.com" :=
  noreply_carveout_github "Jane Doe" "12345+janedoe@users.noreply.github.com"
    (by decide) (by decide) (by decide) (by decide)

/-! ## Claim C7 -/

/-- C7: the four bot-classifier examples.  `("Dependabot[bot]",
"dependabot[bot]@users.noreply.github.com")` is automated (name rule),
`("Jane Doe", "12345+janedoe@users.noreply.github.com")` is human
(privacy carve-out, no bot keyword), `("build", "noreply.github.com")` is
automated (bare noreply domain), `("Jenkins CI", "ci@example.org")` is
automated (name rule). -/
theorem bot_classifier_examples :
    is_bot_or_ci "Dependabot[bot]" "dependabot[bot]@users.noreply.github.com"
        = true ∧
      is_bot_or_ci "Jane Doe" "12345+janedoe@users.noreply.github.com"
        = false ∧
      is_bot_or_ci "build" "noreply.github.com" = true ∧
      is_bot_or_ci "Jenkins CI" "ci@example.org" = true := by
  refine ⟨by decide, by decide, by decide, by decide⟩

/-! ## Claim C9 -/

/-- C9 counterexample: a configuration error is NOT distinguishable by the
caller from a transient failure.  A raised `NotADirectoryError` (missing
repository path), a non-zero exit with `fatal: not a git repository`, and
a timeout all produce the very same caller-visible value (`None`). -/
theorem config_error_indistinguishable :
    run_git_command (.raised "NotADirectoryError") =
        run_git_command .timedOut ∧
      run_git_command
          (.completed 128 "" "fatal: not a git repository") =
        run_git_command .timedOut ∧
      run_git_command .timedOut = none := by
  refine ⟨by decide, by decide, by decide⟩

/-- C9 amended: every failure mode of the extraction command — non-zero
exit (including "not a valid repository"), timeout, and any raised
exception (including a nonexistent repository path) — is surfaced to the
caller identically as an absent result (`None`, upon which
`get_all_contributors` returns the empty mapping); configuration errors
are not distinguished from transient failures. -/
theorem run_git_command_failures_uniform (rc : Int) (out err msg : String)
    (h : rc ≠ 0) :
    run_git_command (.completed rc out err) = none ∧
      run_git_command .timedOut = none ∧
      run_git_command (.raised msg) = none := by
  refine ⟨?_, rfl, rfl⟩
  simp only [run_git_command, beq_iff_eq, if_neg h]

/-- Witness for C9 amended at the concrete `git log` failure of an invalid
repository (exit code 128). -/
theorem run_git_command_failures_uniform_witness :
    run_git_command (.completed 128 "" "fatal: not a git repository") = none ∧
      run_git_command .timedOut = none ∧
      run_git_command (.raised "NotADirectoryError: REPOSITORIES/x") = none :=
  run_git_command_failures_uniform 128 "" "fatal: not a git repository"
    "NotADirectoryError: REPOSITORIES/x" (by decide)

/-! ## Claim C10 -/

/-- C10: in the aggregation loop of `get_all_contributors`, when a non-bot
record arrives whose key already exists and whose normalized timestamp is
not strictly earlier than the stored `first_commit_date` (in particular on
an exact tie), the `contributors` entry — `first_commit_date`,
`first_commit_hash` and the name taken from the first commit — is left
unchanged: replacement happens only on a strictly earlier timestamp. -/
theorem tie_keeps_earlier_first_commit (st : AggState) (r : RawCommit)
    (info : PreInfo)
    (hbot : is_bot_or_ci r.author_name r.author_email = false)
    (hfind : assocFind st.contributors (pyLower r.author_email) = some info)
    (hle : info.first_commit_date ≤ r.commit_date) :
    (recordStep st r).contributors = st.contributors := by
  simp only [recordStep, hbot, Bool.false_eq_true, if_false, hfind]
  rw [if_neg (not_lt.mpr hle)]

/-- Witness for C10: a second record for alice@example.org whose timestamp
ties the stored first commit (both at instant 50) leaves the contributor
entry unchanged. -/
theorem tie_keeps_earlier_first_commit_witness :
    (recordStep wAggState wTieRecord).contributors = wAggState.contributors :=
  tie_keeps_earlier_first_commit wAggState wTieRecord
    ⟨"Alice", "alice@example.org", 50, "hfirst"⟩ (by decide) (by decide)
    (by decide)

/-! ## Claim C4 -/

/-- C4 (code bug in the library resolver): on a merged group whose members
have first-commit dates 5, 3, 4 in processing order, the library resolver
names the result after the date-4 member ("ALICE SMITH"), not after the
date-5 member ("Alice Smith") that holds the group's maximum — the loop
compares each candidate against the running EARLIEST entry instead of the
latest seen.  (The filter conjunct identifies the unique maximal member;
the highlights override of the same method picks it correctly.) -/
theorem lib_resolver_name_not_latest :
    (lib_normalize_contributor_identity nameOrderInput).map
        (fun p => p.2.name) = ["ALICE SMITH"] ∧
      nameOrderInput.all (fun p => p.2.first_commit_date ≤ 5) = true ∧
      (nameOrderInput.filter (fun p => p.2.first_commit_date == 5)).map
        (fun p => p.2.name) = ["Alice Smith"] ∧
      ("ALICE SMITH" : String) ≠ "Alice Smith" ∧
      (hl_normalize_contributor_identity nameOrderInput).map
        (fun p => p.2.name) = ["Alice Smith"] := by
  refine ⟨by decide, by decide, by decide, by decide, by decide⟩

/-! ## Helper lemmas for the identity resolvers -/

/-- Group invariant of the `defaultdict` fold: every group is nonempty,
every member's normalized name is the group key, and every member
satisfies any property `R` the input entries satisfy. -/
theorem foldl_insertGroup_groups (R : String × Info → Prop) :
    ∀ (l : List (String × Info)) (acc : List (String × List (String × Info))),
      (∀ e ∈ acc, e.2 ≠ [] ∧ ∀ q ∈ e.2, keyOfPair q = e.1 ∧ R q) →
      (∀ p ∈ l, R p) →
      ∀ e ∈ l.foldl insertGroup acc,
        e.2 ≠ [] ∧ ∀ q ∈ e.2, keyOfPair q = e.1 ∧ R q := by
  intro l
  induction l with
  | nil =>
    intro acc hacc _
    simpa using hacc
  | cons p t ih =>
    intro acc hacc hl
    simp only [List.foldl_cons]
    apply ih
    · intro e he
      unfold insertGroup at he
      by_cases hany : acc.any (fun g => g.1 == keyOfPair p) = true
      · rw [if_pos hany] at he
        simp only [List.mem_map] at he
        obtain ⟨g, hg, rfl⟩ := he
        by_cases hk : (g.1 == keyOfPair p) = true
        · rw [if_pos hk]
          obtain ⟨_, hg2⟩ := hacc g hg
          refine ⟨by simp, ?_⟩
          intro q hq
          rcases List.mem_append.mp hq with hq' | hq'
          · exact hg2 q hq'
          · have : q = p := by simpa using hq'
            subst this
            exact ⟨(beq_iff_eq.mp hk).symm, hl q (List.mem_cons_self _ _)⟩
        · rw [if_neg hk]
          exact hacc g hg
      · rw [if_neg hany] at he
        rcases List.mem_append.mp he with he' | he'
        · exact hacc e he'
        · have : e = (keyOfPair p, [p]) := by simpa using he'
          subst this
          refine ⟨by simp, ?_⟩
          intro q hq
          have : q = p := by simpa using hq
          subst this
          exact ⟨rfl, hl q (List.mem_cons_self _ _)⟩
    · intro q hq
      exact hl q (List.mem_cons_of_mem _ hq)

/-- The `defaultdict` fold keeps the group keys duplicate-free. -/
theorem foldl_insertGroup_keys_nodup :
    ∀ (l : List (String × Info)) (acc : List (String × List (String × Info))),
      (acc.map Prod.fst).Nodup →
      ((l.foldl insertGroup acc).map Prod.fst).Nodup := by
  intro l
  induction l with
  | nil =>
    intro acc h
    simpa using h
  | cons p t ih =>
    intro acc h
    simp only [List.foldl_cons]
    apply ih
    unfold insertGroup
    by_cases hany : acc.any (fun g => g.1 == keyOfPair p) = true
    · rw [if_pos hany]
      have hmap : (acc.map
          (fun g => if g.1 == keyOfPair p then (g.1, g.2 ++ [p]) else g)).map
            Prod.fst = acc.map Prod.fst := by
        rw [List.map_map]
        apply List.map_congr_left
        intro g _
        by_cases hk : (g.1 == keyOfPair p) = true
        · simp [beq_iff_eq.mp hk]
        · have hne : g.1 ≠ keyOfPair p := fun h => hk (beq_iff_eq.mpr h)
          simp [if_neg hne]
      rw [hmap]
      exact h
    · rw [if_neg hany]
      rw [List.map_append]
      simp only [List.map_cons, List.map_nil]
      rw [List.nodup_append]
      refine ⟨h, List.nodup_singleton _, ?_⟩
      intro x hx
      obtain ⟨g, hg, rfl⟩ := List.mem_map.mp hx
      simp only [List.mem_singleton]
      intro heq
      rw [Bool.not_eq_true, List.any_eq_false] at hany
      exact absurd (by simpa using heq) (by simpa using hany g hg)

/-- When all entries have pairwise-distinct normalized names, the
`defaultdict` fold produces the singleton group of each entry in order. -/
theorem foldl_insertGroup_of_nodup :
    ∀ (l : List (String × Info)) (acc : List (String × List (String × Info))),
      (acc.map Prod.fst ++ l.map keyOfPair).Nodup →
      l.foldl insertGroup acc = acc ++ l.map (fun p => (keyOfPair p, [p])) := by
  intro l
  induction l with
  | nil =>
    intro acc _
    simp
  | cons p t ih =>
    intro acc h
    have hdisj : ∀ g ∈ acc, g.1 ≠ keyOfPair p := by
      intro g hg heq
      rcases List.nodup_append.mp h with ⟨_, _, hd⟩
      exact hd (List.mem_map_of_mem Prod.fst hg)
        (by simp only [List.map_cons]; exact heq ▸ List.mem_cons_self _ _)
    have hany : acc.any (fun g => g.1 == keyOfPair p) = false := by
      rw [List.any_eq_false]
      intro g hg
      simpa using hdisj g hg
    have hstep : insertGroup acc p = acc ++ [(keyOfPair p, [p])] := by
      unfold insertGroup
      rw [if_neg (by simp [hany])]
    simp only [List.foldl_cons, hstep]
    rw [ih (acc ++ [(keyOfPair p, [p])])]
    · simp
    · simp only [List.map_append, List.map_cons, List.map_nil]
      have hperm : (acc.map Prod.fst ++ [keyOfPair p]) ++ t.map keyOfPair =
          acc.map Prod.fst ++ (keyOfPair p :: t.map keyOfPair) := by
        simp
      rw [hperm]
      simpa using h

theorem hlResolveGroup_singleton (nn : String) (p : String × Info) :
    hlResolveGroup (nn, [p]) = p := rfl

theorem libResolveGroup_singleton (nn : String) (p : String × Info) :
    libResolveGroup (nn, [p]) = p := rfl

/-- Python `max` returns an element of its input. -/
theorem maxFrom_mem (q : String × Info) :
    ∀ l : List (String × Info), maxFrom q l = q ∨ maxFrom q l ∈ l := by
  intro l
  induction l generalizing q with
  | nil => left; rfl
  | cons p t ih =>
    simp only [maxFrom]
    by_cases hc : q.2.first_commit_date < p.2.first_commit_date
    · rw [if_pos hc]
      rcases ih p with h | h
      · right; rw [h]; exact List.mem_cons_self _ _
      · right; exact List.mem_cons_of_mem _ h
    · rw [if_neg hc]
      rcases ih q with h | h
      · left; exact h
      · right; exact List.mem_cons_of_mem _ h

/-- The merge branch of the highlights resolver on a nonempty group,
written out. -/
theorem hlMergeGroup_cons (p0 : String × Info) (t : List (String × Info)) :
    hlMergeGroup (p0 :: t) =
      ((earliestFrom p0.2.first_commit_date p0.1 p0.2 t).2.1,
       { (earliestFrom p0.2.first_commit_date p0.1 p0.2 t).2.2 with
         name := (maxFrom p0 t).2.name,
         all_commits := dedupByHash (sortAsc (mergedCommits (p0 :: t))) [],
         total_commits :=
           (dedupByHash (sortAsc (mergedCommits (p0 :: t))) []).length }) := rfl

/-- After one step of the library merge loop both `earliest` and `mrn`
are populated, and `libStep` keeps them populated. -/
theorem libStep_some (st : LibMergeState) (p : String × Info) :
    (libStep st p).earliest.isSome ∧ (libStep st p).mrn.isSome := by
  simp only [libStep]
  constructor
  · rcases st.earliest with _ | ⟨d, ek, ei⟩
    · simp
    · by_cases hc : p.2.first_commit_date < d
      · simp [hc]
      · simp [hc]
  · rcases hm : st.mrn with _ | n
    · simp
    · rcases st.earliest with _ | ⟨d, ek, ei⟩
      · simp
      · by_cases hc : d < p.2.first_commit_date
        · simp [hc]
        · simp [hc]

theorem libFoldl_some :
    ∀ (l : List (String × Info)) (st : LibMergeState),
      st.earliest.isSome → st.mrn.isSome →
      (l.foldl libStep st).earliest.isSome ∧
        (l.foldl libStep st).mrn.isSome := by
  intro l
  induction l with
  | nil =>
    intro st h1 h2
    exact ⟨h1, h2⟩
  | cons p t ih =>
    intro st _ _
    simp only [List.foldl_cons]
    exact ih _ (libStep_some st p).1 (libStep_some st p).2

/-- One step of the library merge loop either takes the incoming member's
name or keeps the running name. -/
theorem libStep_mrn_cases (st : LibMergeState) (p : String × Info) :
    (libStep st p).mrn = some p.2.name ∨ (libStep st p).mrn = st.mrn := by
  simp only [libStep]
  rcases st.mrn with _ | n0
  · left
    rfl
  · rcases st.earliest with _ | ⟨d, ek, ei⟩
    · right
      rfl
    · by_cases hc : d < p.2.first_commit_date
      · left
        simp [hc]
      · right
        simp [hc]

/-- Whatever name the library merge loop ends with was one of the
members' names (or was already present at the start). -/
theorem libFoldl_mrn_mem :
    ∀ (l : List (String × Info)) (st : LibMergeState) (n : String),
      (l.foldl libStep st).mrn = some n →
      st.mrn = some n ∨ n ∈ l.map (fun p => p.2.name) := by
  intro l
  induction l with
  | nil =>
    intro st n h
    left
    simpa using h
  | cons p t ih =>
    intro st n h
    simp only [List.foldl_cons] at h
    rcases ih _ n h with h' | h'
    · rcases libStep_mrn_cases st p with hc | hc
      · rw [hc] at h'
        simp only [Option.some.injEq] at h'
        right
        rw [List.map_cons, h']
        exact List.mem_cons_self _ _
      · rw [hc] at h'
        left
        exact h'
    · right
      exact List.mem_cons_of_mem _ h'

/-- The library finish step, written out for populated state. -/
theorem libFinish_spec (st : LibMergeState) (d : Int) (ek : String)
    (ei : Info) (n : String) (he : st.earliest = some (d, ek, ei))
    (hm : st.mrn = some n) :
    libFinish st =
      (ek, { ei with name := n,
                     all_emails := some (dedupFirst st.emails []),
                     all_commits := (pyDictOfCommits st.commits).map Prod.snd,
                     total_commits := (pyDictOfCommits st.commits).length }) := by
  unfold libFinish
  rw [he, hm]

/-- The merged entry produced by the highlights resolver carries a name
taken from a group member, so its normalized name is the group key. -/
theorem keyOf_hlMergeGroup (p0 : String × Info) (t : List (String × Info))
    (nn : String) (hkeys : ∀ q ∈ p0 :: t, keyOfPair q = nn) :
    keyOfPair (hlMergeGroup (p0 :: t)) = nn := by
  rw [hlMergeGroup_cons]
  show normalizeName (maxFrom p0 t).2.name = nn
  rcases maxFrom_mem p0 t with h | h
  · rw [h]
    exact hkeys p0 (List.mem_cons_self _ _)
  · exact hkeys _ (List.mem_cons_of_mem _ h)

/-- Likewise for the library resolver. -/
theorem keyOf_libMergeGroup (p0 : String × Info) (t : List (String × Info))
    (nn : String) (hkeys : ∀ q ∈ p0 :: t, keyOfPair q = nn) :
    keyOfPair (libMergeGroup (p0 :: t)) = nn := by
  unfold libMergeGroup
  have hsome := libFoldl_some t (libStep ⟨none, none, [], []⟩ p0)
    (libStep_some _ _).1 (libStep_some _ _).2
  rw [show (p0 :: t).foldl libStep ⟨none, none, [], []⟩ =
    t.foldl libStep (libStep ⟨none, none, [], []⟩ p0) from rfl]
  set st := t.foldl libStep (libStep ⟨none, none, [], []⟩ p0) with hst
  obtain ⟨⟨d, ek, ei⟩, he⟩ := Option.isSome_iff_exists.mp hsome.1
  obtain ⟨n, hm⟩ := Option.isSome_iff_exists.mp hsome.2
  rw [libFinish_spec st d ek ei n he hm]
  show normalizeName n = nn
  have hmem : n ∈ (p0 :: t).map (fun p => p.2.name) := by
    have h0 : ((p0 :: t).foldl libStep ⟨none, none, [], []⟩).mrn = some n := by
      rw [show (p0 :: t).foldl libStep ⟨none, none, [], []⟩ =
        t.foldl libStep (libStep ⟨none, none, [], []⟩ p0) from rfl, ← hst]
      exact hm
    rcases libFoldl_mrn_mem (p0 :: t) ⟨none, none, [], []⟩ n h0 with h | h
    · cases h
    · exact h
  obtain ⟨q, hq, hqn⟩ := List.mem_map.mp hmem
  rw [← hqn]
  exact hkeys q hq

/-- The key of every resolved group is the group key, for both resolvers. -/
theorem keyOf_hlResolveGroup (e : String × List (String × Info))
    (hne : e.2 ≠ []) (hkeys : ∀ q ∈ e.2, keyOfPair q = e.1) :
    keyOfPair (hlResolveGroup e) = e.1 := by
  obtain ⟨nn, g⟩ := e
  match g with
  | [] => exact absurd rfl hne
  | [p] => exact hkeys p (List.mem_cons_self _ _)
  | p :: q :: t =>
    show keyOfPair (hlMergeGroup (p :: q :: t)) = nn
    exact keyOf_hlMergeGroup p (q :: t) nn hkeys

theorem keyOf_libResolveGroup (e : String × List (String × Info))
    (hne : e.2 ≠ []) (hkeys : ∀ q ∈ e.2, keyOfPair q = e.1) :
    keyOfPair (libResolveGroup e) = e.1 := by
  obtain ⟨nn, g⟩ := e
  match g with
  | [] => exact absurd rfl hne
  | [p] => exact hkeys p (List.mem_cons_self _ _)
  | p :: q :: t =>
    show keyOfPair (libMergeGroup (p :: q :: t)) = nn
    exact keyOf_libMergeGroup p (q :: t) nn hkeys

/-- The normalized names of the highlights resolver's output entries are
pairwise distinct. -/
theorem hl_resolve_keys_nodup (l : List (String × Info)) :
    ((hl_normalize_contributor_identity l).map keyOfPair).Nodup := by
  unfold hl_normalize_contributor_identity
  rw [List.map_map]
  have h1 : (groupByName l).map (keyOfPair ∘ hlResolveGroup) =
      (groupByName l).map Prod.fst := by
    apply List.map_congr_left
    intro e he
    have hinv := foldl_insertGroup_groups (fun _ => True) l [] (by simp)
      (fun _ _ => trivial) e he
    exact keyOf_hlResolveGroup e hinv.1 (fun q hq => (hinv.2 q hq).1)
  rw [h1]
  exact foldl_insertGroup_keys_nodup l [] (by simp)

theorem lib_resolve_keys_nodup (l : List (String × Info)) :
    ((lib_normalize_contributor_identity l).map keyOfPair).Nodup := by
  unfold lib_normalize_contributor_identity
  rw [List.map_map]
  have h1 : (groupByName l).map (keyOfPair ∘ libResolveGroup) =
      (groupByName l).map Prod.fst := by
    apply List.map_congr_left
    intro e he
    have hinv := foldl_insertGroup_groups (fun _ => True) l [] (by simp)
      (fun _ _ => trivial) e he
    exact keyOf_libResolveGroup e hinv.1 (fun q hq => (hinv.2 q hq).1)
  rw [h1]
  exact foldl_insertGroup_keys_nodup l [] (by simp)

/-- On a mapping whose entries already have pairwise-distinct normalized
names, both resolvers are the identity (every group is a singleton and
passes through unchanged). -/
theorem hl_resolve_of_nodup (l : List (String × Info))
    (h : (l.map keyOfPair).Nodup) :
    hl_normalize_contributor_identity l = l := by
  unfold hl_normalize_contributor_identity groupByName
  rw [foldl_insertGroup_of_nodup l [] (by simpa using h)]
  rw [List.nil_append, List.map_map]
  have h2 : l.map (hlResolveGroup ∘ fun p => (keyOfPair p, [p])) = l.map id := by
    apply List.map_congr_left
    intro p _
    rfl
  rw [h2, List.map_id]

theorem lib_resolve_of_nodup (l : List (String × Info))
    (h : (l.map keyOfPair).Nodup) :
    lib_normalize_contributor_identity l = l := by
  unfold lib_normalize_contributor_identity groupByName
  rw [foldl_insertGroup_of_nodup l [] (by simpa using h)]
  rw [List.nil_append, List.map_map]
  have h2 : l.map (libResolveGroup ∘ fun p => (keyOfPair p, [p])) = l.map id := by
    apply List.map_congr_left
    intro p _
    rfl
  rw [h2, List.map_id]

/-! ## Claim C8 -/

/-- C8: the identity resolver is idempotent — for every mapping of email
to contributor aggregate, applying `normalize_contributor_identity` to its
own output yields that output again (every output entry carries a
distinct normalized name, so the second pass merges nothing).  This holds
for the highlights override and for the base-library version alike. -/
theorem normalize_contributor_identity_idempotent
    (contributors : List (String × Info)) :
    hl_normalize_contributor_identity
        (hl_normalize_contributor_identity contributors) =
      hl_normalize_contributor_identity contributors ∧
    lib_normalize_contributor_identity
        (lib_normalize_contributor_identity contributors) =
      lib_normalize_contributor_identity contributors :=
  ⟨hl_resolve_of_nodup _ (hl_resolve_keys_nodup contributors),
   lib_resolve_of_nodup _ (lib_resolve_keys_nodup contributors)⟩

/-! ## Helper lemmas for commit ordering and de-duplication -/

theorem mem_insertAsc (c x : Commit) :
    ∀ l : List Commit, x ∈ insertAsc c l ↔ x = c ∨ x ∈ l := by
  intro l
  induction l with
  | nil => simp [insertAsc]
  | cons d rest ih =>
    simp only [insertAsc]
    by_cases h : d.date < c.date
    · rw [if_pos h]
      simp only [List.mem_cons, ih]
      tauto
    · rw [if_neg h]
      simp only [List.mem_cons]

theorem pairwise_insertAsc (c : Commit) :
    ∀ l : List Commit,
      List.Pairwise (fun a b => a.date ≤ b.date) l →
      List.Pairwise (fun a b => a.date ≤ b.date) (insertAsc c l) := by
  intro l
  induction l with
  | nil =>
    intro _
    simp [insertAsc]
  | cons d rest ih =>
    intro h
    rw [List.pairwise_cons] at h
    obtain ⟨hd, hrest⟩ := h
    simp only [insertAsc]
    by_cases hc : d.date < c.date
    · rw [if_pos hc]
      rw [List.pairwise_cons]
      refine ⟨?_, ih hrest⟩
      intro x hx
      rcases (mem_insertAsc c x rest).mp hx with rfl | hx'
      · exact le_of_lt hc
      · exact hd x hx'
    · rw [if_neg hc]
      rw [List.pairwise_cons]
      refine ⟨?_, List.pairwise_cons.mpr ⟨hd, hrest⟩⟩
      intro x hx
      rcases List.mem_cons.mp hx with rfl | hx'
      · exact not_lt.mp hc
      · exact le_trans (not_lt.mp hc) (hd x hx')

/-- The stable sort of the highlights merge branch is sorted ascending. -/
theorem pairwise_sortAsc (l : List Commit) :
    List.Pairwise (fun a b => a.date ≤ b.date) (sortAsc l) := by
  induction l with
  | nil => simp [sortAsc]
  | cons c t ih => simpa [sortAsc] using pairwise_insertAsc c _ ih

/-- De-duplication only drops elements. -/
theorem dedupByHash_sublist :
    ∀ (l : List Commit) (seen : List String),
      List.Sublist (dedupByHash l seen) l := by
  intro l
  induction l with
  | nil =>
    intro seen
    simp [dedupByHash]
  | cons c rest ih =>
    intro seen
    simp only [dedupByHash]
    by_cases h : seen.contains c.hash = true
    · rw [if_pos h]
      exact (ih seen).cons c
    · rw [if_neg h]
      exact (ih _).cons₂ c

/-- De-duplication leaves no repeated hash, and emits no hash already
seen. -/
theorem dedupByHash_nodup :
    ∀ (l : List Commit) (seen : List String),
      ((dedupByHash l seen).map Commit.hash).Nodup ∧
        ∀ h ∈ (dedupByHash l seen).map Commit.hash, h ∉ seen := by
  intro l
  induction l with
  | nil =>
    intro seen
    simp [dedupByHash]
  | cons c rest ih =>
    intro seen
    simp only [dedupByHash]
    by_cases h : seen.contains c.hash = true
    · rw [if_pos h]
      exact ih seen
    · rw [if_neg h]
      obtain ⟨ih1, ih2⟩ := ih (c.hash :: seen)
      simp only [List.map_cons, List.nodup_cons]
      refine ⟨⟨?_, ih1⟩, ?_⟩
      · intro hmem
        exact (ih2 _ hmem) (List.mem_cons_self _ _)
      · intro x hx
        rcases List.mem_cons.mp hx with rfl | hx'
        · intro hc
          exact h (List.contains_iff_exists_mem_beq.mpr
            ⟨c.hash, hc, by simp⟩)
        · intro hc
          exact (ih2 x hx') (List.mem_cons_of_mem _ hc)

/-- One dict insertion preserves the dict invariant: keys are pairwise
distinct and each key is the hash of its stored commit. -/
theorem pyDictInsert_inv (d : List (String × Commit)) (c : Commit)
    (h1 : (d.map Prod.fst).Nodup) (h2 : ∀ q ∈ d, q.1 = q.2.hash) :
    ((pyDictInsert d c).map Prod.fst).Nodup ∧
      ∀ q ∈ pyDictInsert d c, q.1 = q.2.hash := by
  unfold pyDictInsert
  by_cases hany : d.any (fun q => q.1 == c.hash) = true
  · rw [if_pos hany]
    constructor
    · have hmap : (d.map
          (fun q => if q.1 == c.hash then (q.1, c) else q)).map Prod.fst =
            d.map Prod.fst := by
        rw [List.map_map]
        apply List.map_congr_left
        intro q _
        by_cases hk : (q.1 == c.hash) = true
        · simp [beq_iff_eq.mp hk]
        · have hne : q.1 ≠ c.hash := fun hx => hk (beq_iff_eq.mpr hx)
          simp [if_neg hne]
      rw [hmap]
      exact h1
    · intro q hq
      simp only [List.mem_map] at hq
      obtain ⟨q0, hq0, rfl⟩ := hq
      by_cases hk : (q0.1 == c.hash) = true
      · simp only [if_pos hk]
        exact beq_iff_eq.mp hk
      · simp only [if_neg hk]
        exact h2 q0 hq0
  · rw [if_neg hany]
    rw [Bool.not_eq_true, List.any_eq_false] at hany
    constructor
    · rw [List.map_append]
      simp only [List.map_cons, List.map_nil]
      rw [List.nodup_append]
      refine ⟨h1, List.nodup_singleton _, ?_⟩
      intro x hx
      obtain ⟨q, hq, rfl⟩ := List.mem_map.mp hx
      simp only [List.mem_singleton]
      intro heq
      exact absurd (by simpa using heq) (by simpa using hany q hq)
    · intro q hq
      rcases List.mem_append.mp hq with hq' | hq'
      · exact h2 q hq'
      · have : q = (c.hash, c) := by simpa using hq'
        subst this
        rfl

theorem pyDictOfCommits_inv :
    ∀ (cs : List Commit) (d : List (String × Commit)),
      (d.map Prod.fst).Nodup → (∀ q ∈ d, q.1 = q.2.hash) →
      ((cs.foldl pyDictInsert d).map Prod.fst).Nodup ∧
        ∀ q ∈ cs.foldl pyDictInsert d, q.1 = q.2.hash := by
  intro cs
  induction cs with
  | nil =>
    intro d h1 h2
    exact ⟨h1, h2⟩
  | cons c rest ih =>
    intro d h1 h2
    simp only [List.foldl_cons]
    obtain ⟨g1, g2⟩ := pyDictInsert_inv d c h1 h2
    exact ih _ g1 g2

/-- The values of the hash-keyed dict carry pairwise-distinct hashes. -/
theorem pyDictValues_hash_nodup (cs : List Commit) :
    (((pyDictOfCommits cs).map Prod.snd).map Commit.hash).Nodup := by
  obtain ⟨h1, h2⟩ := pyDictOfCommits_inv cs [] (by simp) (by simp)
  have hmap : ((pyDictOfCommits cs).map Prod.snd).map Commit.hash =
      (pyDictOfCommits cs).map Prod.fst := by
    rw [List.map_map]
    apply List.map_congr_left
    intro q hq
    exact (h2 q hq).symm
  rw [hmap]
  exact h1

/-- The merged commits of a library-resolver group are the values of the
hash-keyed dict built from the loop's accumulated commits. -/
theorem libMergeGroup_all_commits (p0 : String × Info)
    (t : List (String × Info)) :
    (libMergeGroup (p0 :: t)).2.all_commits =
      (pyDictOfCommits
        (((p0 :: t).foldl libStep ⟨none, none, [], []⟩).commits)).map
          Prod.snd := by
  unfold libMergeGroup
  have hsome := libFoldl_some t (libStep ⟨none, none, [], []⟩ p0)
    (libStep_some _ _).1 (libStep_some _ _).2
  rw [show (p0 :: t).foldl libStep ⟨none, none, [], []⟩ =
    t.foldl libStep (libStep ⟨none, none, [], []⟩ p0) from rfl]
  set st := t.foldl libStep (libStep ⟨none, none, [], []⟩ p0) with hst
  obtain ⟨⟨d, ek, ei⟩, he⟩ := Option.isSome_iff_exists.mp hsome.1
  obtain ⟨n, hm⟩ := Option.isSome_iff_exists.mp hsome.2
  rw [libFinish_spec st d ek ei n he hm]

/-! ## Claim C5 -/

/-- C5 counterexample: an output entry of the library identity resolver
whose `all_commits` is NOT sorted ascending, produced from well-formed
input aggregates (each sorted and hash-distinct).  The merged group keeps
dict insertion order — member concatenation order — so the commit dated
10 precedes the commit dated 5. -/
theorem lib_resolver_merged_commits_unsorted :
    unsortedMergeInput.all
        (fun p =>
          decide (List.Pairwise (fun a b => a.date ≤ b.date) p.2.all_commits)
            && decide ((p.2.all_commits.map Commit.hash).Nodup)) = true ∧
      (lib_normalize_contributor_identity unsortedMergeInput).map
        (fun p => p.2.all_commits.map Commit.date) = [[10, 5]] ∧
      (lib_normalize_contributor_identity unsortedMergeInput).map
        (fun p =>
          decide (List.Pairwise (fun a b => a.date ≤ b.date)
            p.2.all_commits)) = [false] := by
  refine ⟨by decide, by decide, by decide⟩

/-- C5 amended: for every output entry of the highlights identity
resolver — merged entries and singleton pass-throughs alike, given input
aggregates whose commit lists are sorted and hash-distinct as
`get_all_contributors` produces them — `all_commits` contains no two
commits with the same hash and is sorted ascending by timestamp.  The
base-library resolver guarantees hash-distinctness the same way, but its
merged entries keep concatenation order and need not be sorted (see the
counterexample). -/
theorem resolver_output_commits_sorted_nodup (l : List (String × Info))
    (h : ∀ p ∈ l,
      List.Pairwise (fun a b => a.date ≤ b.date) p.2.all_commits ∧
        (p.2.all_commits.map Commit.hash).Nodup) :
    (∀ q ∈ hl_normalize_contributor_identity l,
        List.Pairwise (fun a b => a.date ≤ b.date) q.2.all_commits ∧
          (q.2.all_commits.map Commit.hash).Nodup) ∧
      ∀ q ∈ lib_normalize_contributor_identity l,
        (q.2.all_commits.map Commit.hash).Nodup := by
  constructor
  · intro q hq
    simp only [hl_normalize_contributor_identity, List.mem_map] at hq
    obtain ⟨e, he, rfl⟩ := hq
    have hinv := foldl_insertGroup_groups (· ∈ l) l [] (by simp)
      (fun p hp => hp) e he
    obtain ⟨nn, g⟩ := e
    match g, hinv with
    | [], hinv => exact absurd rfl hinv.1
    | [p], hinv =>
      exact h p (hinv.2 p (List.mem_cons_self _ _)).2
    | p :: p' :: t, hinv =>
      rw [show hlResolveGroup (nn, p :: p' :: t) = hlMergeGroup (p :: p' :: t)
        from rfl, hlMergeGroup_cons]
      exact ⟨List.Pairwise.sublist (dedupByHash_sublist _ [])
          (pairwise_sortAsc _),
        (dedupByHash_nodup _ []).1⟩
  · intro q hq
    simp only [lib_normalize_contributor_identity, List.mem_map] at hq
    obtain ⟨e, he, rfl⟩ := hq
    have hinv := foldl_insertGroup_groups (· ∈ l) l [] (by simp)
      (fun p hp => hp) e he
    obtain ⟨nn, g⟩ := e
    match g, hinv with
    | [], hinv => exact absurd rfl hinv.1
    | [p], hinv =>
      exact (h p (hinv.2 p (List.mem_cons_self _ _)).2).2
    | p :: p' :: t, hinv =>
      rw [show libResolveGroup (nn, p :: p' :: t) = libMergeGroup (p :: p' :: t)
        from rfl, libMergeGroup_all_commits]
      exact pyDictValues_hash_nodup _

/-- Witness for C5 amended: the merged output entry of the highlights
resolver on the two-aggregate scenario has its commits sorted (5 then 10)
and hash-distinct. -/
theorem resolver_output_commits_sorted_nodup_witness :
    List.Pairwise (fun a b => a.date ≤ b.date)
        [Commit.mk 5 "h2", Commit.mk 10 "h1"] ∧
      (([Commit.mk 5 "h2", Commit.mk 10 "h1"]).map Commit.hash).Nodup :=
  (resolver_output_commits_sorted_nodup unsortedMergeInput (by decide)).1
    ("e2@x", ⟨"Bob Jones", "e2@x", 5, "h-e2@x", 2,
      [⟨5, "h2"⟩, ⟨10, "h1"⟩], none⟩)
    (by decide)
